import Mathlib

/-!
Shallow embedding of the simulation engine in
`src/Code/simulation.ipynb` (stochastic spatiotemporal growth model).

Random draws are modelled as explicit streams: a seeded generator is a
function `ℕ → ℝ` (or `ℕ → ℕ` for integer draws) giving the successive
values it produces, and the legacy global `np.random` state is a second,
independent stream.  All array arithmetic is over `ℝ`.
-/

namespace StochGrowth

/-- `np.cumprod` on a list: entry `i` is the product of the first `i+1`
elements. -/
def cumprod : List ℝ → List ℝ
  | [] => []
  | a :: l => a :: (cumprod l).map (fun x => a * x)

/-- One macro-step update of a single cell, transcribed from the update line
`current = current * np.prod(g, axis=2)
 + c * np.sum(np.cumprod(g[:, :, 1:][:, :, ::-1], axis=2), axis=2) + c`
of the three-value / log-uniform / binary cells: take the full product of the
`τ` growth factors, add `c` times the sum of the cumulative products of the
reversed tail `g_2..g_τ`, and add the final forcing `c`. -/
def cellUpdate (c : ℝ) (gs : List ℝ) (x : ℝ) : ℝ :=
  x * gs.prod + c * (cumprod (gs.drop 1).reverse).sum + c

/-- The sub-step recurrence `x ← g_k * x + c` applied chronologically for
each growth factor in the list. -/
def substepIter (gs : List ℝ) (x c : ℝ) : ℝ :=
  gs.foldl (fun y g => g * y + c) x

/-- The spec's closed form (section 4.2):
`old · Π(g_1..g_τ) + c · Σ_{k=1}^{τ-1} Π(g_{k+1}..g_τ) + c`,
written with 0-based indexing: the `k`-th summand (for `k < τ-1`) is the
product of the factors after position `k+1`. -/
def specClosedForm (gs : List ℝ) (x c : ℝ) : ℝ :=
  x * gs.prod + c * (∑ k ∈ Finset.range (gs.length - 1), (gs.drop (k + 1)).prod) + c

lemma cumprod_append (u v : List ℝ) :
    cumprod (u ++ v) = cumprod u ++ (cumprod v).map (fun x => u.prod * x) := by
  induction u with
  | nil => simp [cumprod]
  | cons a u ih =>
      simp only [List.cons_append, cumprod, List.prod_cons, List.cons.injEq, true_and]
      rw [show u ++ v = u.append v from rfl] at ih
      rw [ih, List.map_append, List.map_map]
      congr 1
      apply List.map_congr_left
      intro x _
      simp [mul_assoc]

/-- Sum of the cumulative products of the reversed list = sum over `k` of the
product of the elements from position `k` on. -/
lemma sum_cumprod_reverse (l : List ℝ) :
    (cumprod l.reverse).sum = ∑ k ∈ Finset.range l.length, (l.drop k).prod := by
  induction l with
  | nil => simp [cumprod]
  | cons a m ih =>
      rw [List.reverse_cons, cumprod_append]
      simp only [List.sum_append, ih, cumprod, List.map_cons, List.map_nil,
        List.sum_cons, List.sum_nil, List.length_cons]
      rw [Finset.sum_range_succ']
      simp only [List.drop_succ_cons, List.drop_zero, List.prod_cons,
        List.prod_reverse]
      ring

/-- The sub-step recurrence in closed form: iterating `x ← g*x + c` over the
list multiplies the start value by the full product and injects `c` decayed
by the product of the remaining factors (including an undecayed final `c`,
the empty-suffix term). -/
lemma substepIter_eq (gs : List ℝ) (x c : ℝ) :
    substepIter gs x c
      = x * gs.prod + c * (∑ k ∈ Finset.range gs.length, (gs.drop (k + 1)).prod) := by
  induction gs generalizing x with
  | nil => simp [substepIter]
  | cons a m ih =>
      show substepIter m (a * x + c) c = _
      rw [ih]
      simp only [List.length_cons, List.prod_cons]
      rw [Finset.sum_range_succ']
      simp only [List.drop_succ_cons, List.drop_zero]
      ring

lemma cellUpdate_eq_specClosedForm (gs : List ℝ) (x c : ℝ) :
    cellUpdate c gs x = specClosedForm gs x c := by
  unfold cellUpdate specClosedForm
  rw [sum_cumprod_reverse]
  have h : (∑ k ∈ Finset.range (gs.drop 1).length, ((gs.drop 1).drop k).prod)
      = ∑ k ∈ Finset.range (gs.length - 1), (gs.drop (k + 1)).prod := by
    rw [List.length_drop]
    exact Finset.sum_congr rfl (fun k _ => by rw [List.drop_drop, Nat.add_comm k 1])
  rw [h]

lemma substepIter_eq_specClosedForm (gs : List ℝ) (x c : ℝ) (hne : gs ≠ []) :
    substepIter gs x c = specClosedForm gs x c := by
  rw [substepIter_eq, specClosedForm]
  obtain ⟨a, m, rfl⟩ := List.exists_cons_of_ne_nil hne
  simp only [List.length_cons, Nat.add_sub_cancel]
  rw [Finset.sum_range_succ]
  rw [List.drop_eq_nil_of_le (by simp)]
  simp only [List.prod_nil]
  ring

/-- One integer draw in `[1, 10)`, modelling `rng.integers(1, 10, ...)` and
`np.random.randint(1, 10, ...)`: an entropy stream `e` of raw nonnegative
integers is reduced to the 9 admissible values `1..9`. -/
def initAbundance (e : ℕ → ℕ) (i : ℕ) : ℕ :=
  1 + e i % 9

/-- `current = rng.integers(1, 10, size=(S, M))` : the initial real abundance
of flat cell `i` (cell `(s, m)` is flat index `s * M + m`). -/
def nonSpatialInit (e : ℕ → ℕ) (i : ℕ) : ℝ :=
  (initAbundance e i : ℕ)

/-- The `τ` growth factors consumed by one cell in one macro step:
`rng.choice(values, size=(S, M, tau))` draws `S*M*τ` values in C order, so
flat cell `cell` receives the `τ` consecutive stream values starting at
`base + cell * τ`, where `base` is the stream position at the start of the
macro step. -/
def drawsFor (stream : ℕ → ℝ) (tau base cell : ℕ) : List ℝ :=
  (List.range tau).map (fun k => stream (base + cell * tau + k))

/-- State of the non-spatial model after `t` executions of the loop body
`current = current * np.prod(g, axis=2) + c * np.sum(...) + c` : `t = 0` is
the freshly initialized `current`, and each iteration consumes one batch of
`S*M*τ` growth-factor draws from the stream. -/
def stateAt (S M tau : ℕ) (c : ℝ) (stream : ℕ → ℝ) (init : ℕ → ℝ) :
    ℕ → ℕ → ℝ
  | 0 => init
  | t + 1 => fun cell =>
      cellUpdate c (drawsFor stream tau (t * (S * M * tau)) cell)
        (stateAt S M tau c stream init t cell)

/-- `N[s, t] = np.sum(current, axis=1)[s]` : coarse-grained abundance of
species `s` at macro step `t` (sum of its `M` sites). -/
def NSeries (S M tau : ℕ) (c : ℝ) (stream : ℕ → ℝ) (init : ℕ → ℝ)
    (s t : ℕ) : ℝ :=
  ∑ m ∈ Finset.range M, stateAt S M tau c stream init t (s * M + m)

/-- The emitted abundance time series of species `s` : row `s` of the array
`N` of shape `(S, dp)`, filled by `N[:, 0] = np.sum(current, axis=1)`
followed by the loop `for t in range(1, dp)`. -/
def runSeries (S M tau dp : ℕ) (c : ℝ) (stream : ℕ → ℝ) (init : ℕ → ℝ)
    (s : ℕ) : List ℝ :=
  (List.range dp).map (NSeries S M tau c stream init s)

/-- `G = N[:, 1:] / N[:, :-1]` for one species row: element-wise quotient of
the shifted series by the unshifted one.  Total: a zero denominator yields
the field's total-division value, no error is raised. -/
noncomputable def growthRates (N : List ℝ) : List ℝ :=
  List.zipWith (fun a b => a / b) (N.drop 1) N

/-- Modelled from the spec: section 4.4 requires the growth-rate computation
to fail with `DivisionByZero` whenever some denominator is `≤ 0` instead of
emitting a value; this checked variant is absent from the source and exists
only to be compared with `growthRates`. -/
noncomputable def growthRatesChecked (N : List ℝ) : Except Unit (List ℝ) :=
  if (N.dropLast).all (fun b => decide (0 < b)) then
    Except.ok (growthRates N)
  else
    Except.error ()

/-- Binary model: `g0 = (2/(1+gamma**alpha))**(1/alpha)`. -/
noncomputable def binaryG0 (gamma alpha : ℝ) : ℝ :=
  (2 / (1 + gamma ^ alpha)) ^ (1 / alpha)

/-- Binary model: `g1 = gamma*g0`. -/
noncomputable def binaryG1 (gamma alpha : ℝ) : ℝ :=
  gamma * binaryG0 gamma alpha

/-- The value written for lattice cell `(i, j)`, transcribed from the inner
loop body of the spatial-diffusion cell: neighbor rows `ai = (i-1) % L`,
`ci = (i+1) % L` and columns `bj = (j+1) % L`, `dj = (j-1) % L` (periodic
boundary, written with `+ L` so that natural subtraction agrees with
Python's `%` on `0 ≤ i < L`), flat indices `ind = i*L + j` etc., and
`allxs[ind, t] = ((1 - 4*d) * allxs[ind, t-1] + d * (allxs[ind_a, t-1] +
allxs[ind_b, t-1] + allxs[ind_c, t-1] + allxs[ind_d, t-1])) * g[ind] + c`. -/
def spatialCellVal (L : ℕ) (d c : ℝ) (prev : ℕ → ℝ) (g : ℕ → ℝ)
    (i j : ℕ) : ℝ :=
  ((1 - 4 * d) * prev (i * L + j)
      + d * (prev (((i + L - 1) % L) * L + j) + prev (i * L + (j + 1) % L)
          + prev (((i + 1) % L) * L + j) + prev (i * L + (j + L - 1) % L)))
    * g (i * L + j) + c

/-- One execution of the inner loop body: write the value of cell `p` into
the step-`t` column `buf`, reading only the step-`t-1` column `prev`. -/
def writeCell (L : ℕ) (d c : ℝ) (prev : ℕ → ℝ) (g : ℕ → ℝ)
    (buf : ℕ → ℝ) (p : ℕ × ℕ) : ℕ → ℝ :=
  Function.update buf (p.1 * L + p.2) (spatialCellVal L d c prev g p.1 p.2)

/-- A whole-lattice sweep: execute the loop body once for every cell in
`order`, starting from the buffer `buf`. -/
def sweep (L : ℕ) (d c : ℝ) (prev : ℕ → ℝ) (g : ℕ → ℝ)
    (order : List (ℕ × ℕ)) (buf : ℕ → ℝ) : ℕ → ℝ :=
  order.foldl (writeCell L d c prev g) buf

/-- The source's iteration order `for i in range(L): for j in range(L)`. -/
def rowMajor (L : ℕ) : List (ℕ × ℕ) :=
  (List.range L).flatMap (fun i => (List.range L).map (fun j => (i, j)))

/-- Column `t` of `allxs` in the spatial-diffusion cell.  The initial column
is `allxs[:, 0] = np.random.randint(1, 10, size=L*L)` — drawn from the
LEGACY GLOBAL generator, modelled by the stream `e`, not from the seeded
`rng` — and each later column is a row-major sweep over a fresh zero column
(`allxs = np.zeros(...)`), with one seeded growth draw `g t ind` per cell
per step. -/
def spatialState (L : ℕ) (d c : ℝ) (e : ℕ → ℕ) (g : ℕ → ℕ → ℝ) :
    ℕ → ℕ → ℝ
  | 0 => fun ind => (initAbundance e ind : ℕ)
  | t + 1 =>
      sweep L d c (spatialState L d c e g t) (g t) (rowMajor L) (fun _ => 0)

lemma flat_index_inj {L a b i j : ℕ} (hb : b < L) (hj : j < L)
    (h : a * L + b = i * L + j) : a = i ∧ b = j := by
  have hL : 0 < L := Nat.lt_of_le_of_lt (Nat.zero_le j) hj
  have hb2 : (a * L + b) % L = b := by
    rw [Nat.mul_comm a L, Nat.mul_add_mod, Nat.mod_eq_of_lt hb]
  have hj2 : (i * L + j) % L = j := by
    rw [Nat.mul_comm i L, Nat.mul_add_mod, Nat.mod_eq_of_lt hj]
  have hbj : b = j := by rw [← hb2, ← hj2, h]
  refine ⟨?_, hbj⟩
  have : a * L = i * L := by omega
  exact Nat.eq_of_mul_eq_mul_right hL this

lemma mem_rowMajor {L i j : ℕ} : (i, j) ∈ rowMajor L ↔ i < L ∧ j < L := by
  simp only [rowMajor, List.mem_flatMap, List.mem_map, List.mem_range,
    Prod.mk.injEq]
  constructor
  · rintro ⟨a, ha, b, hb, h1, h2⟩
    exact ⟨h1 ▸ ha, h2 ▸ hb⟩
  · rintro ⟨hi, hj⟩
    exact ⟨i, hi, j, hj, rfl, rfl⟩

/-- A sweep leaves untouched every flat index whose cell is not in the
iteration order: every write of the loop targets the flat index of its own
cell. -/
lemma sweep_not_mem (L : ℕ) (d c : ℝ) (prev g : ℕ → ℝ)
    (order : List (ℕ × ℕ)) {i j : ℕ} (hi : i < L) (hj : j < L)
    (horder : ∀ p ∈ order, p.1 < L ∧ p.2 < L) (hmem : (i, j) ∉ order) :
    ∀ buf, sweep L d c prev g order buf (i * L + j) = buf (i * L + j) := by
  induction order with
  | nil => intro buf; rfl
  | cons p rest ih =>
      intro buf
      have hp := horder p (List.mem_cons_self p rest)
      have hrest : ∀ q ∈ rest, q.1 < L ∧ q.2 < L :=
        fun q hq => horder q (List.mem_cons_of_mem p hq)
      have hne : (i, j) ∉ rest := fun h => hmem (List.mem_cons_of_mem p h)
      show sweep L d c prev g rest (writeCell L d c prev g buf p) (i * L + j) = _
      rw [ih hrest hne]
      have hpij : p ≠ (i, j) := fun h => hmem (h ▸ List.mem_cons_self p rest)
      have hidx : p.1 * L + p.2 ≠ i * L + j := by
        intro h
        obtain ⟨h1, h2⟩ := flat_index_inj hp.2 hj h
        exact hpij (Prod.ext h1 h2)
      simp only [writeCell]
      exact Function.update_noteq (Ne.symm hidx) _ buf

/-- Order independence of the sweep: whatever the iteration order over the
lattice cells, the value finally stored for cell `(i, j)` is
`spatialCellVal` of the previous column — each loop body reads only `prev`,
so no write can influence another cell's value. -/
lemma sweep_apply (L : ℕ) (d c : ℝ) (prev g : ℕ → ℝ)
    (order : List (ℕ × ℕ)) {i j : ℕ} (hi : i < L) (hj : j < L)
    (horder : ∀ p ∈ order, p.1 < L ∧ p.2 < L) (hmem : (i, j) ∈ order) :
    ∀ buf, sweep L d c prev g order buf (i * L + j)
        = spatialCellVal L d c prev g i j := by
  induction order with
  | nil => exact absurd hmem (List.not_mem_nil (i, j))
  | cons p rest ih =>
      intro buf
      have hrest : ∀ q ∈ rest, q.1 < L ∧ q.2 < L :=
        fun q hq => horder q (List.mem_cons_of_mem p hq)
      show sweep L d c prev g rest (writeCell L d c prev g buf p) (i * L + j) = _
      by_cases hin : (i, j) ∈ rest
      · exact ih hrest hin _
      · have hp : p = (i, j) := by
          rcases List.mem_cons.mp hmem with h | h
          · exact h.symm
          · exact absurd h hin
        rw [sweep_not_mem L d c prev g rest hi hj hrest hin]
        subst hp
        simp [writeCell]

lemma cumprod_mem_pos {l : List ℝ} (h : ∀ a ∈ l, 0 < a) :
    ∀ y ∈ cumprod l, 0 < y := by
  induction l with
  | nil => intro y hy; simp [cumprod] at hy
  | cons a m ih =>
      intro y hy
      simp only [cumprod, List.mem_cons, List.mem_map] at hy
      rcases hy with rfl | ⟨x, hx, rfl⟩
      · exact h y (List.mem_cons_self y m)
      · exact mul_pos (h a (List.mem_cons_self a m))
          (ih (fun b hb => h b (List.mem_cons_of_mem a hb)) x hx)

/-- One macro-step update maps a positive abundance to a positive abundance
whenever `c > 0` and all growth factors are positive: the product term, the
telescoping sum and the trailing forcing are all nonnegative and the last is
strictly positive. -/
lemma cellUpdate_pos {c x : ℝ} {gs : List ℝ} (hc : 0 < c)
    (hgs : ∀ g ∈ gs, 0 < g) (hx : 0 < x) : 0 < cellUpdate c gs x := by
  unfold cellUpdate
  have h1 : 0 < gs.prod := List.prod_pos hgs
  have h2 : 0 ≤ (cumprod (gs.drop 1).reverse).sum := by
    apply List.sum_nonneg
    intro y hy
    exact le_of_lt (cumprod_mem_pos
      (fun a ha => hgs a (List.mem_of_mem_drop (List.mem_reverse.mp ha))) y hy)
  have h3 : 0 < x * gs.prod := mul_pos hx h1
  nlinarith

/-- Every growth factor consumed in a macro step is positive when the draw
stream is positive. -/
lemma drawsFor_pos {stream : ℕ → ℝ} (hs : ∀ n, 0 < stream n)
    (tau base cell : ℕ) : ∀ g ∈ drawsFor stream tau base cell, 0 < g := by
  intro g hg
  simp only [drawsFor, List.mem_map, List.mem_range] at hg
  obtain ⟨k, _, rfl⟩ := hg
  exact hs _

lemma stateAt_pos {S M tau : ℕ} {c : ℝ} {stream : ℕ → ℝ} {init : ℕ → ℝ}
    (hc : 0 < c) (hs : ∀ n, 0 < stream n) (hinit : ∀ i, 0 < init i) :
    ∀ t i, 0 < stateAt S M tau c stream init t i := by
  intro t
  induction t with
  | zero => exact hinit
  | succ t ih =>
      intro i
      exact cellUpdate_pos hc (drawsFor_pos hs tau (t * (S * M * tau)) i) (ih i)

/-- C1: for every cell value `x`, constant `c` and sequence of `τ ≥ 1`
positive growth factors applied chronologically, the closed form
`x·Π(g_1..g_τ) + c·Σ_{k=1}^{τ-1} Π(g_{k+1}..g_τ) + c` equals the result of
iterating the sub-step recurrence `x ← g_k·x + c`, and the implementation's
single pass (full product plus sum of the cumulative products of the
reversed tail) computes exactly this closed form. -/
theorem C1_closed_form_correct (gs : List ℝ) (x c : ℝ) (hne : gs ≠ [])
    (hpos : ∀ g ∈ gs, 0 < g) :
    substepIter gs x c = specClosedForm gs x c
      ∧ cellUpdate c gs x = specClosedForm gs x c :=
  ⟨substepIter_eq_specClosedForm gs x c hne, cellUpdate_eq_specClosedForm gs x c⟩

theorem C1_witness :
    (([(2:ℝ), 3] ≠ []) ∧ (∀ g ∈ [(2:ℝ), 3], 0 < g))
      ∧ (substepIter [(2:ℝ), 3] 1 1 = specClosedForm [(2:ℝ), 3] 1 1
          ∧ cellUpdate 1 [(2:ℝ), 3] 1 = specClosedForm [(2:ℝ), 3] 1 1) :=
  ⟨⟨by simp, by norm_num⟩,
    C1_closed_form_correct [2, 3] 1 1 (by simp) (by norm_num)⟩

/-- C7: at `τ = 1` the macro-step update degenerates exactly to
`new = old·g + c` : the telescoping summation (over the cumulative products
of the reversed empty tail) contributes zero, and a single forcing term `+c`
remains. -/
theorem C7_tau_one_degenerate (g x c : ℝ) :
    cellUpdate c [g] x = x * g + c
      ∧ (cumprod (([g]).drop 1).reverse).sum = 0 := by
  constructor
  · simp [cellUpdate, cumprod]
  · simp [cumprod]

/-- C6: for any `γ > 0` and `α > 0`, the binary-model pair
`g0 = (2/(1+γ^α))^(1/α)`, `g1 = γ·g0` satisfies the moment-matching
constraint `(1/2)·(g0^α + g1^α) = 1` exactly over the reals. -/
theorem C6_binary_moment_matching (gamma alpha : ℝ) (hg : 0 < gamma)
    (ha : 0 < alpha) :
    (1 / 2) * (binaryG0 gamma alpha ^ alpha + binaryG1 gamma alpha ^ alpha)
      = 1 := by
  have hga : 0 < gamma ^ alpha := Real.rpow_pos_of_pos hg alpha
  have h1 : (0:ℝ) < 1 + gamma ^ alpha := by linarith
  have hbase : (0:ℝ) ≤ 2 / (1 + gamma ^ alpha) := by positivity
  have hg0 : binaryG0 gamma alpha ^ alpha = 2 / (1 + gamma ^ alpha) := by
    rw [binaryG0, ← Real.rpow_mul hbase, one_div, inv_mul_cancel₀ (ne_of_gt ha),
      Real.rpow_one]
  have hg0nn : 0 ≤ binaryG0 gamma alpha := Real.rpow_nonneg hbase _
  have hg1 : binaryG1 gamma alpha ^ alpha
      = gamma ^ alpha * (2 / (1 + gamma ^ alpha)) := by
    rw [binaryG1, Real.mul_rpow (le_of_lt hg) hg0nn, hg0]
  rw [hg0, hg1]
  field_simp
  ring

theorem C6_witness :
    ((0:ℝ) < 1 ∧ (0:ℝ) < 1)
      ∧ (1 / 2) * (binaryG0 1 1 ^ (1:ℝ) + binaryG1 1 1 ^ (1:ℝ)) = 1 :=
  ⟨⟨by norm_num, by norm_num⟩, C6_binary_moment_matching 1 1 one_pos one_pos⟩

/-- C9: with `c > 0`, strictly positive growth draws and strictly positive
initial abundances, every per-cell abundance after every macro step is
strictly positive, and (for `M ≥ 1`) every per-species site-sum entry of the
abundance series is strictly positive — so no growth-rate denominator is
`≤ 0`. -/
theorem C9_positivity (S M tau : ℕ) (c : ℝ) (stream : ℕ → ℝ)
    (init : ℕ → ℝ) (hc : 0 < c) (hs : ∀ n, 0 < stream n)
    (hinit : ∀ i, 0 < init i) (hM : 1 ≤ M) :
    (∀ t i, 0 < stateAt S M tau c stream init t i)
      ∧ ∀ s t, 0 < NSeries S M tau c stream init s t := by
  refine ⟨stateAt_pos hc hs hinit, fun s t => ?_⟩
  apply Finset.sum_pos
  · intro m _
    exact stateAt_pos hc hs hinit t _
  · exact Finset.nonempty_range_iff.mpr (by omega)

theorem C9_witness :
    ((0:ℝ) < 1 ∧ 1 ≤ 1)
      ∧ ((∀ t i, 0 < stateAt 1 1 1 1 (fun _ => 1) (fun _ => 1) t i)
          ∧ ∀ s t, 0 < NSeries 1 1 1 1 (fun _ => 1) (fun _ => 1) s t) :=
  ⟨⟨by norm_num, le_refl 1⟩,
    C9_positivity 1 1 1 1 (fun _ => 1) (fun _ => 1) (by norm_num)
      (fun n => by norm_num) (fun i => by norm_num) (le_refl 1)⟩

/-- C10: every initial abundance draw — non-spatial `rng.integers(1, 10)`
and spatial `np.random.randint(1, 10)` alike — is an integer in
`{1, ..., 9}` : strictly positive and bounded by 9; the nine residue classes
of the entropy stream map bijectively onto `{1, ..., 9}` (the uniform
range); the non-spatial initial state and column 0 of the spatial lattice
are exactly these draws. -/
theorem C10_initial_range :
    (∀ e i, 1 ≤ initAbundance e i ∧ initAbundance e i ≤ 9)
      ∧ (Finset.image (fun r => initAbundance (fun _ => r) 0) (Finset.range 9)
          = Finset.Icc 1 9)
      ∧ (∀ e i, nonSpatialInit e i = ((initAbundance e i : ℕ) : ℝ))
      ∧ ∀ (L : ℕ) (d c : ℝ) (e : ℕ → ℕ) (g : ℕ → ℕ → ℝ) (ind : ℕ),
          spatialState L d c e g 0 ind = ((initAbundance e ind : ℕ) : ℝ) := by
  refine ⟨fun e i => ?_, by decide, fun e i => rfl,
    fun L d c e g ind => rfl⟩
  unfold initAbundance
  omega

/-- C3: the spatial variant's initial lattice `allxs[:, 0]` is drawn from
the legacy global generator `np.random.randint`, not from the seeded `rng`:
with every seeded input held fixed (identical growth-draw stream), two
ambient global-generator states produce different trajectories, so the run
is not bit-reproducible from the seed alone. -/
theorem C3_global_rng_breaks_determinism :
    spatialState 1 0 1 (fun _ => 0) (fun _ _ => 1) 0 0
      ≠ spatialState 1 0 1 (fun _ => 1) (fun _ _ => 1) 0 0 := by
  simp only [spatialState, initAbundance]
  norm_num

/-- C8 (amended): a run configured with macro-step count `dp ≥ 1` emits a
series of `dp` entries; entry 0 is the aggregate of the fresh initial state
and entry `t` is the aggregate of the state advanced `t` times by the
macro-step update — so the state is advanced `dp − 1` times in total — and
each advance consumes exactly `τ` consecutive stream draws per cell (the
draws at offsets `t·S·M·τ + cell·τ + k`, `k < τ`). -/
theorem C8_run_structure (S M tau dp : ℕ) (c : ℝ) (stream : ℕ → ℝ)
    (init : ℕ → ℝ) (s : ℕ) (hdp : 1 ≤ dp) :
    (runSeries S M tau dp c stream init s).length = dp
      ∧ NSeries S M tau c stream init s 0
          = ∑ m ∈ Finset.range M, init (s * M + m)
      ∧ (∀ t (h : t < (runSeries S M tau dp c stream init s).length),
          (runSeries S M tau dp c stream init s).get ⟨t, h⟩
            = NSeries S M tau c stream init s t)
      ∧ ∀ t cell, stateAt S M tau c stream init (t + 1) cell
          = cellUpdate c ((List.range tau).map
              (fun k => stream (t * (S * M * tau) + cell * tau + k)))
              (stateAt S M tau c stream init t cell) := by
  refine ⟨by simp [runSeries], rfl, fun t h => ?_, fun t cell => rfl⟩
  simp [runSeries]

theorem C8_witness :
    (1 ≤ 2)
      ∧ ((runSeries 1 1 1 2 1 (fun _ => 2) (fun _ => 1) 0).length = 2
          ∧ NSeries 1 1 1 1 (fun _ => 2) (fun _ => 1) 0 0
              = ∑ m ∈ Finset.range 1, (fun _ : ℕ => (1:ℝ)) (0 * 1 + m)
          ∧ (∀ t (h : t < (runSeries 1 1 1 2 1 (fun _ => 2) (fun _ => 1) 0).length),
              (runSeries 1 1 1 2 1 (fun _ => 2) (fun _ => 1) 0).get ⟨t, h⟩
                = NSeries 1 1 1 1 (fun _ => 2) (fun _ => 1) 0 t)
          ∧ ∀ t cell, stateAt 1 1 1 1 (fun _ => 2) (fun _ => 1) (t + 1) cell
              = cellUpdate 1 ((List.range 1).map
                  (fun k => (fun _ : ℕ => (2:ℝ)) (t * (1 * 1 * 1) + cell * 1 + k)))
                  (stateAt 1 1 1 1 (fun _ => 2) (fun _ => 1) t cell)) :=
  ⟨by norm_num, C8_run_structure 1 1 1 2 1 (fun _ => 2) (fun _ => 1) 0 (by norm_num)⟩

/-- C8 counterexample: with `dp = 1` (and `S = M = τ = 1`, `c = 1`, every
growth draw equal to 2, initial abundance 1) the emitted series is `[1]` —
the bare initial aggregate, the state having been advanced `dp − 1 = 0`
times — whereas a state advanced `dp = 1` times would be
`1·2 + 1·0 + 1 = 3 ≠ 1`. -/
theorem C8_counterexample :
    runSeries 1 1 1 1 1 (fun _ => 2) (fun _ => 1) 0 = [1]
      ∧ stateAt 1 1 1 1 (fun _ => 2) (fun _ => 1) 1 0 = 3
      ∧ (1:ℝ) ≠ 3 := by
  refine ⟨?_, ?_, by norm_num⟩
  · simp [runSeries, List.range_succ, NSeries, stateAt]
  · simp [stateAt, cellUpdate, drawsFor, cumprod]
    norm_num

/-- C2: in the spatial variant, for every macro step and every lattice cell
`(i, j)`, the value written for step `t+1` equals
`[(1 − 4d)·old + d·(old at north, south, east and west neighbors, indices
wrapped mod L in both dimensions)] · g_{(i,j)} + c` evaluated on the step-`t`
column only, where `g t` is the single per-cell growth draw of the step;
and this holds for EVERY iteration order over the cells (first conjunct:
an arbitrary order; second conjunct: the source's row-major sweep), because
each loop body reads only the previous column — no update reads a value
already written within the same step. -/
theorem C2_spatial_synchronous_update (L : ℕ) (d c : ℝ) (e : ℕ → ℕ)
    (g : ℕ → ℕ → ℝ) (t i j : ℕ) (order : List (ℕ × ℕ)) (buf : ℕ → ℝ)
    (hi : i < L) (hj : j < L)
    (horder : ∀ p ∈ order, p.1 < L ∧ p.2 < L) (hmem : (i, j) ∈ order) :
    sweep L d c (spatialState L d c e g t) (g t) order buf (i * L + j)
        = ((1 - 4 * d) * spatialState L d c e g t (i * L + j)
            + d * (spatialState L d c e g t (((i + L - 1) % L) * L + j)
                + spatialState L d c e g t (i * L + (j + 1) % L)
                + spatialState L d c e g t (((i + 1) % L) * L + j)
                + spatialState L d c e g t (i * L + (j + L - 1) % L)))
          * g t (i * L + j) + c
      ∧ spatialState L d c e g (t + 1) (i * L + j)
          = ((1 - 4 * d) * spatialState L d c e g t (i * L + j)
              + d * (spatialState L d c e g t (((i + L - 1) % L) * L + j)
                  + spatialState L d c e g t (i * L + (j + 1) % L)
                  + spatialState L d c e g t (((i + 1) % L) * L + j)
                  + spatialState L d c e g t (i * L + (j + L - 1) % L)))
            * g t (i * L + j) + c := by
  constructor
  · exact sweep_apply L d c (spatialState L d c e g t) (g t) order hi hj
      horder hmem buf
  · exact sweep_apply L d c (spatialState L d c e g t) (g t) (rowMajor L)
      hi hj (fun p hp => by obtain ⟨a, b⟩ := p; exact mem_rowMajor.mp hp)
      (mem_rowMajor.mpr ⟨hi, hj⟩) (fun _ => 0)

theorem C2_witness :
    ((0 < 1) ∧ (∀ p ∈ [((0:ℕ), (0:ℕ))], p.1 < 1 ∧ p.2 < 1)
      ∧ ((0, 0) ∈ [((0:ℕ), (0:ℕ))]))
      ∧ spatialState 1 1 1 (fun _ => 0) (fun _ _ => 1) 1 0
          = ((1 - 4 * 1) * 1 + 1 * (1 + 1 + 1 + 1)) * 1 + 1 := by
  refine ⟨⟨by decide, by decide, by decide⟩, ?_⟩
  have h := (C2_spatial_synchronous_update 1 1 1 (fun _ => 0)
      (fun _ _ => 1) 0 0 0 [((0:ℕ), (0:ℕ))] (fun _ => 0)
      (by decide) (by decide) (by decide) (by decide)).2
  have hX : spatialState 1 1 1 (fun _ => 0) (fun _ _ => 1) 0 = fun _ => 1 := by
    funext ind
    simp [spatialState, initAbundance]
  rw [hX] at h
  norm_num at h
  norm_num
  exact h

/-- C4 (amended): for every valid index `t`, the growth-rate series entry
equals `AbundanceTimeSeries[t+1] / AbundanceTimeSeries[t]`; the computation
`G = N[:, 1:] / N[:, :-1]` is an unconditional element-wise total division —
it performs no positivity check and raises no error on a denominator
`≤ 0`. -/
theorem C4_growth_ratio (N : List ℝ) (t : ℕ) (h1 : t + 1 < N.length)
    (h2 : t < (growthRates N).length) :
    (growthRates N).get ⟨t, h2⟩
      = N.get ⟨t + 1, h1⟩ / N.get ⟨t, Nat.lt_of_succ_lt h1⟩ := by
  have hd : t < (N.drop 1).length := by
    rw [List.length_drop]
    omega
  have ht : t < N.length := Nat.lt_of_succ_lt h1
  simp only [growthRates, List.get_eq_getElem, List.getElem_zipWith]
  congr 1
  rw [List.getElem_drop]
  congr 1
  omega

theorem C4_witness :
    ((0 + 1 < ([(1:ℝ), 2]).length) ∧ 0 < (growthRates [(1:ℝ), 2]).length)
      ∧ (growthRates [(1:ℝ), 2]).get ⟨0, by simp [growthRates]⟩
          = ([(1:ℝ), 2]).get ⟨0 + 1, by simp⟩
              / ([(1:ℝ), 2]).get ⟨0, by simp⟩ :=
  ⟨⟨by simp, by simp [growthRates]⟩,
    C4_growth_ratio [(1:ℝ), 2] 0 (by simp) (by simp [growthRates])⟩

/-- C4 counterexample: on the series `[0, 1]` the denominator
`AbundanceTimeSeries[0] = 0` is `≤ 0`, yet the source computation does not
fail: it returns the one-entry list `[1 / 0]` (real total division), whereas
the checked variant demanded by the spec returns a DivisionByZero error.
The claim's failure branch is therefore not what the code does. -/
theorem C4_counterexample :
    growthRates [(0:ℝ), 1] = [(1:ℝ) / 0]
      ∧ growthRatesChecked [(0:ℝ), 1] = Except.error () := by
  constructor
  · rfl
  · have h : ¬ (0:ℝ) < 0 := lt_irrefl 0
    simp [growthRatesChecked, h]

end StochGrowth







